import Mathlib

/-!
Verification of the tiered caching and call-coalescing layer of the
quick-eat-platform repository.

The embedding below models, faithfully to the TypeScript source:
* the tiered cache `setCache` / `getCache` / `removeCache`
  (src/src/types/app.ts), with the in-memory tier and the localStorage
  durable tier made explicit state, time passed as a `Nat` parameter,
  localStorage records that may be corrupt (JSON.parse throws), and a
  flag modelling a throwing `localStorage.setItem`;
* the LRU memoizer `memoize` (src/src/utils/optimizationUtils.ts), with
  the JS `Map` modelled as an insertion-ordered association list;
* the `useThrottle`, `useDebounce` and `useBatchRequests` hooks
  (src/src/utils/optimizationUtils.ts), modelled as explicit state
  machines driven by timestamped events, with `setTimeout` timers made
  explicit pending entries fired by the event driver.
-/

namespace QuickEat

/-! ## Tiered cache (src/src/types/app.ts) -/

/-- `DEFAULT_CACHE_TIME = 5 * 60 * 1000` from the source. -/
def DEFAULT_CACHE_TIME : Nat := 5 * 60 * 1000

/-- The localStorage key for a cache key: the source concatenates the
constant namespace string in front of the key. -/
def cacheKeyOf (key : String) : String := "food_delivery_app_cache_" ++ key

/-- An entry of the in-memory tier: the source stores `{ value, expiresAt }`. -/
structure MemEntry (V : Type) where
  value : V
  expiresAt : Nat
deriving Repr, DecidableEq

/-- A parsed durable-tier record: the source stores
`{ value, timestamp, expiresAt }` as JSON. -/
structure CacheItem (V : Type) where
  value : V
  timestamp : Nat
  expiresAt : Nat
deriving Repr, DecidableEq

/-- A raw durable-tier record: either a well-formed JSON record, or a
corrupt string on which `JSON.parse` throws. -/
inductive LSRecord (V : Type) where
  | good (item : CacheItem V)
  | corrupt
deriving Repr, DecidableEq

/-- The combined state of both tiers.  The memory tier is keyed by the
plain key, the durable tier by the namespaced key `cacheKeyOf key`. -/
structure CacheState (V : Type) where
  memoryCache : String → Option (MemEntry V)
  localStore : String → Option (LSRecord V)

/-- Pointwise update of a string-keyed map. -/
def updateFn {β : Type} (f : String → Option β) (k : String) (v : Option β) :
    String → Option β :=
  fun x => if x = k then v else f x

/-- The empty cache state. -/
def emptyCacheState (V : Type) : CacheState V := ⟨fun _ => none, fun _ => none⟩

/-- `setCache` from the source.  `expiresIn` is the optional
`options.expiresIn`; the JS `options?.expiresIn || DEFAULT_CACHE_TIME`
falls back to the default on `undefined` and on `0`.  `useMemoryCache`
models `options?.useMemoryCache !== false`.  `storageFails` models
`localStorage.setItem` throwing: the source's `try`/`catch` swallows the
error, and because the memory-tier write comes after the durable write,
a throw leaves the whole state unchanged. -/
def setCache {V : Type} (key : String) (value : V) (expiresIn : Option Nat)
    (useMemoryCache : Bool) (now : Nat) (storageFails : Bool)
    (st : CacheState V) : CacheState V :=
  if storageFails then st
  else
    let e := match expiresIn with
      | some n => if n = 0 then DEFAULT_CACHE_TIME else n
      | none => DEFAULT_CACHE_TIME
    let expiresAt := now + e
    let rec0 : Option (LSRecord V) := some (LSRecord.good ⟨value, now, expiresAt⟩)
    let st1 : CacheState V :=
      { st with localStore := updateFn st.localStore (cacheKeyOf key) rec0 }
    if useMemoryCache then
      { st1 with memoryCache := updateFn st1.memoryCache key (some ⟨value, expiresAt⟩) }
    else st1

/-- `removeCache` from the source: delete from both tiers. -/
def removeCache {V : Type} (key : String) (st : CacheState V) : CacheState V :=
  { memoryCache := updateFn st.memoryCache key none
    localStore := updateFn st.localStore (cacheKeyOf key) none }

/-- The localStorage half of `getCache`: consulted when the memory tier
does not hold an unexpired entry.  A missing record returns `null`; a
corrupt record makes `JSON.parse` throw, the surrounding `catch` logs
and returns `null` with the state untouched (the record is not
deleted); a parsed record is expired only when `now > item.expiresAt`
(strict), in which case `removeCache` runs; otherwise the memory tier is
refreshed and the value returned. -/
def getCacheLS {V : Type} (key : String) (now : Nat) (st : CacheState V) :
    Option V × CacheState V :=
  match st.localStore (cacheKeyOf key) with
  | none => (none, st)
  | some LSRecord.corrupt => (none, st)
  | some (LSRecord.good item) =>
    if item.expiresAt < now then (none, removeCache key st)
    else
      let st1 : CacheState V :=
        { st with memoryCache := updateFn st.memoryCache key (some ⟨item.value, item.expiresAt⟩) }
      (some item.value, st1)

/-- `getCache` from the source: the memory tier answers only when
`now < expiresAt` (an expired memory entry is not removed, the code just
falls through); otherwise the durable tier is consulted. -/
def getCache {V : Type} (key : String) (now : Nat) (st : CacheState V) :
    Option V × CacheState V :=
  match st.memoryCache key with
  | some memItem =>
    if now < memItem.expiresAt then (some memItem.value, st)
    else getCacheLS key now st
  | none => getCacheLS key now st

/-! ## LRU memoizer (`memoize`, src/src/utils/optimizationUtils.ts) -/

/-- An entry of the memoization table: `{ value, lastAccessed }`. -/
structure MemoEntry (V : Type) where
  value : V
  lastAccessed : Nat
deriving Repr, DecidableEq

/-- The JS `Map` of the memoizer, modelled as an insertion-ordered
association list with pairwise-distinct keys (a fresh `set` appends,
matching `Map` iteration order; a hit mutates the entry in place). -/
abbrev MemoCache (V : Type) := List (String × MemoEntry V)

/-- `cache.get`/`cache.has` on the modelled `Map`. -/
def lookupEntry {V : Type} (key : String) : MemoCache V → Option (MemoEntry V)
  | [] => none
  | (k, e) :: rest => if k = key then some e else lookupEntry key rest

/-- The in-place `item.lastAccessed = now` on a cache hit: the entry
keeps its position, only its timestamp changes. -/
def refreshAt {V : Type} (key : String) (now : Nat) (cache : MemoCache V) : MemoCache V :=
  cache.map fun kv => if kv.1 = key then (kv.1, { kv.2 with lastAccessed := now }) else kv

/-- `cache.delete oldestKey`: remove the entry with the given key. -/
def eraseKey {V : Type} (key : String) : MemoCache V → MemoCache V
  | [] => []
  | (k, e) :: rest => if k = key then rest else (k, e) :: eraseKey key rest

/-- One comparison of the eviction scan: keep the candidate whose
`lastAccessed` is strictly smaller (`v.lastAccessed < oldestTime`). -/
def oldestStep {V : Type} (best : String × Nat) (kv : String × MemoEntry V) : String × Nat :=
  if kv.2.lastAccessed < best.2 then (kv.1, kv.2.lastAccessed) else best

/-- The eviction scan of `memoize`: iterate the table in insertion order
starting from `oldestTime = Infinity` (so the first entry always becomes
the initial candidate), keeping the first entry whose `lastAccessed` is
strictly smaller than the best so far.  Returns the chosen key and its
`lastAccessed`, or `none` on an empty table. -/
def findOldest {V : Type} : MemoCache V → Option (String × Nat)
  | [] => none
  | (k, e) :: rest => some (rest.foldl oldestStep (k, e.lastAccessed))

/-- One call of the memoized function.  On a hit the cached value is
returned and `lastAccessed` refreshed.  On a miss `fn` runs; then, when
`cache.size >= maxSize`, the eviction scan runs and the source guards
the deletion with the JS truthiness test `if (oldestKey)`, which is
false both for `null` and for the empty-string key; finally the new
entry is appended. -/
def memoStep {α V : Type} (fn : α → V) (resolver : α → String) (maxSize : Nat)
    (now : Nat) (cache : MemoCache V) (arg : α) : V × MemoCache V :=
  let key := resolver arg
  match lookupEntry key cache with
  | some item => (item.value, refreshAt key now cache)
  | none =>
    let result := fn arg
    let cache1 :=
      if maxSize ≤ cache.length then
        match findOldest cache with
        | some (oldestKey, _) =>
          if oldestKey = "" then cache else eraseKey oldestKey cache
        | none => cache
      else cache
    (result, cache1 ++ [(key, ⟨result, now⟩)])

/-- The LRU scenario of the spec: `maxSize = 2`; insert `"a"` at time 1,
insert `"b"` at time 2, access `"a"` at time 3, insert `"c"` at time 4. -/
def lruScenario (V : Type) (f : String → V) : MemoCache V :=
  let s1 := memoStep f id 2 1 [] "a"
  let s2 := memoStep f id 2 2 s1.2 "b"
  let s3 := memoStep f id 2 3 s2.2 "a"
  let s4 := memoStep f id 2 4 s3.2 "c"
  s4.2

/-! ## Throttle (`useThrottle`, src/src/utils/optimizationUtils.ts) -/

/-- State of a throttled function: `lastRan` (a ref initialised to 0),
the pending trailing timer — `(fireAt, capturedNow, args)`, where
`fireAt = now + (delay - (now - lastRan))` and `capturedNow` is the
closure-captured `now` assigned to `lastRan` when the timer fires —,
the `isThrottled` flag, and the log of callback invocations as
`(time, args)` pairs. -/
structure ThrottleState (A : Type) where
  lastRan : Nat
  pending : Option (Nat × Nat × A)
  isThrottled : Bool
  invocations : List (Nat × A)
deriving Repr, DecidableEq

/-- Initial throttle state: `lastRan = 0`, no timer, not throttled. -/
def throttleInit (A : Type) : ThrottleState A := ⟨0, none, false, []⟩

/-- The trailing timer firing: `lastRan = now` (the captured one!), the
callback runs with the captured args, `isThrottled` drops to `false`,
the timer handle is cleared. -/
def fireTimer {A : Type} (st : ThrottleState A) : ThrottleState A :=
  match st.pending with
  | none => st
  | some (fireAt, capturedNow, args) =>
    { lastRan := capturedNow
      pending := none
      isThrottled := false
      invocations := st.invocations ++ [(fireAt, args)] }

/-- One call of the throttled function at time `now`.  Inside the window
(`now - lastRan < delay`) the flag is raised, any pending timer is
replaced by one due at `now + (delay - (now - lastRan))` carrying these
args.  Outside the window the callback runs immediately, `lastRan` is
updated and the flag lowered. -/
def throttleCall {A : Type} (delay now : Nat) (args : A) (st : ThrottleState A) :
    ThrottleState A :=
  if now - st.lastRan < delay then
    { st with isThrottled := true
              pending := some (now + (delay - (now - st.lastRan)), now, args) }
  else
    { st with lastRan := now
              isThrottled := false
              invocations := st.invocations ++ [(now, args)] }

/-- Time advancing to `t`: a pending timer whose due time has arrived
fires (the event loop runs it before any later call). -/
def throttleTick {A : Type} (t : Nat) (st : ThrottleState A) : ThrottleState A :=
  match st.pending with
  | some (fireAt, _, _) => if fireAt ≤ t then fireTimer st else st
  | none => st

/-- Event driver: before each call any due timer fires, then the call
happens. -/
def throttleRun {A : Type} (delay : Nat) : List (Nat × A) → ThrottleState A → ThrottleState A
  | [], st => st
  | (t, a) :: rest, st => throttleRun delay rest (throttleCall delay t a (throttleTick t st))

/-- After the last call, let any pending trailing timer fire. -/
def throttleFinish {A : Type} (st : ThrottleState A) : ThrottleState A := fireTimer st

/-! ## Debounce (`useDebounce`, src/src/utils/optimizationUtils.ts) -/

/-- Debounce state for the non-leading mode: the pending timer
`(fireAt, value)` armed by the latest value arrival, and the log of
releases, i.e. of `setDebouncedValue` calls, as `(time, value)` pairs. -/
structure DebounceState (V : Type) where
  pending : Option (Nat × V)
  releases : List (Nat × V)
deriving Repr, DecidableEq

/-- A value arrival at time `t`: a timer already due has fired before
this event (the event loop runs it first); a not-yet-due timer is
cancelled by the effect cleanup (`clearTimeout`); then a fresh timer due
at `t + delay` is armed carrying this value. -/
def debounceArrive {V : Type} (delay t : Nat) (v : V) (st : DebounceState V) :
    DebounceState V :=
  let st1 : DebounceState V := match st.pending with
    | some (fireAt, pv) =>
      if fireAt ≤ t then { pending := none, releases := st.releases ++ [(fireAt, pv)] }
      else st
    | none => st
  { pending := some (t + delay, v), releases := st1.releases }

/-- After the last arrival, let the remaining timer fire. -/
def debounceFinish {V : Type} (st : DebounceState V) : DebounceState V :=
  match st.pending with
  | some (fireAt, pv) => { pending := none, releases := st.releases ++ [(fireAt, pv)] }
  | none => st

/-- Event driver over the timestamped value arrivals. -/
def debounceRun {V : Type} (delay : Nat) : List (Nat × V) → DebounceState V → DebounceState V
  | [], st => st
  | (t, v) :: rest, st => debounceRun delay rest (debounceArrive delay t v st)

/-- The `useState` initialiser of `useDebounce`, over a model of JS
runtime values.  Non-leading mode replaces a string by `''`, a number by
`0`, an array by `[]`; `null`, `undefined` and every other value
(objects, booleans, ...) pass through unchanged. -/
inductive JSVal where
  | nullV
  | undefinedV
  | str (s : String)
  | num (n : Int)
  | arr (elems : List JSVal)
  | objV
  | bool (b : Bool)
deriving Repr

/-- `initialDebounced leading v` is the initial `debouncedValue`: with
`leading` it is `v` itself; otherwise the source checks, in order,
`null`/`undefined`, `typeof === string`, `typeof === number`,
`Array.isArray`, and finally falls through to `v`. -/
def initialDebounced (leading : Bool) (v : JSVal) : JSVal :=
  if leading then v
  else match v with
    | .nullV => .nullV
    | .undefinedV => .undefinedV
    | .str _ => .str ""
    | .num _ => .num 0
    | .arr _ => .arr []
    | other => other

/-! ## Batch collector (`useBatchRequests`, src/src/utils/optimizationUtils.ts) -/

/-- State of a batch collector: the pending queue, whether the delay
timer is armed, and the list of batches handed to the processing
function so far (each `dispatched` entry is the argument list of one
`processFn` invocation). -/
structure BatchState (T : Type) where
  queue : List T
  timerArmed : Bool
  dispatched : List (List T)
deriving Repr, DecidableEq

/-- `processBatch` from the source: an empty queue returns early without
calling `processFn`; otherwise the queue is snapshotted and cleared
atomically before the `await`, and the snapshot becomes the argument
list of one `processFn` invocation.  Items added while that invocation
is in flight are later events and land in the fresh queue. -/
def processBatch {T : Type} (st : BatchState T) : BatchState T :=
  if st.queue.isEmpty then st
  else { st with queue := [], dispatched := st.dispatched ++ [st.queue] }

/-- `addToQueue` from the source: append the item; on reaching
`maxBatchSize` clear the timer and flush immediately; otherwise arm the
delay timer when none is armed. -/
def addToQueue {T : Type} (maxBatchSize : Nat) (item : T) (st : BatchState T) :
    BatchState T :=
  let st1 := { st with queue := st.queue ++ [item] }
  if maxBatchSize ≤ st1.queue.length then
    processBatch { st1 with timerArmed := false }
  else if st1.timerArmed then st1
  else { st1 with timerArmed := true }

/-- The delay timer firing: flush, then clear the timer handle. -/
def timerFire {T : Type} (st : BatchState T) : BatchState T :=
  if st.timerArmed then { processBatch st with timerArmed := false } else st

/-- Events a batch collector reacts to: an `addToQueue` call, the delay
timer firing, and a manual call of the returned `processBatch`. -/
inductive BatchEv (T : Type) where
  | add (item : T)
  | fire
  | flush
deriving Repr, DecidableEq

/-- One event step of the batch collector. -/
def batchStep {T : Type} (maxBatchSize : Nat) (st : BatchState T) : BatchEv T → BatchState T
  | .add item => addToQueue maxBatchSize item st
  | .fire => timerFire st
  | .flush => processBatch st

/-- Run a batch collector over a sequence of events. -/
def batchRun {T : Type} (maxBatchSize : Nat) (evs : List (BatchEv T)) (st : BatchState T) :
    BatchState T :=
  evs.foldl (batchStep maxBatchSize) st

/-- The items added by a sequence of events, in order. -/
def addedItems {T : Type} : List (BatchEv T) → List T
  | [] => []
  | .add item :: rest => item :: addedItems rest
  | .fire :: rest => addedItems rest
  | .flush :: rest => addedItems rest

/-! ## Helper lemmas -/

@[simp]
theorem updateFn_self {β : Type} (f : String → Option β) (k : String) (v : Option β) :
    updateFn f k v k = v := by
  simp [updateFn]

theorem updateFn_ne {β : Type} (f : String → Option β) (k x : String) (v : Option β)
    (h : x ≠ k) : updateFn f k v x = f x := by
  simp [updateFn, h]

theorem setCache_ok {V : Type} (k : String) (v : V) (ttl t : Nat) (st : CacheState V)
    (hne : ttl ≠ 0) :
    setCache k v (some ttl) true t false st =
      { memoryCache := updateFn st.memoryCache k (some ⟨v, t + ttl⟩)
        localStore := updateFn st.localStore (cacheKeyOf k)
          (some (LSRecord.good ⟨v, t, t + ttl⟩)) } := by
  simp [setCache, hne]

/-! ## Claim theorems for the tiered cache -/

/-- Claim C1 counterexample: `set("k", 7, ttl = 100)` at `t = 0` followed by
`get("k")` at exactly `t' = t + ttl = 100` returns the value, not a miss:
the durable tier's expiry test `now > item.expiresAt` is strict, so the
claim's "miss whenever `t' >= t + ttl`" fails at the boundary. -/
theorem ttl_boundary_cex :
    (0 : Nat) + 100 ≤ 100 ∧
    (getCache "k" 100
        (setCache "k" (7 : Nat) (some 100) true 0 false (emptyCacheState Nat))).1
      = some 7 :=
  ⟨Nat.le_refl _, rfl⟩

/-- Claim C1 (amended): for `ttl > 0`, `set(k, v, ttl)` at `t` followed by
`get(k)` at `t'` returns `v` when `t' < t + ttl` and a miss when
`t' > t + ttl` (at `t' = t + ttl` exactly, the durable tier still
returns `v`).  Moreover the memory tier never answers with an entry
whose `expiresAt ≤ now`, and the durable tier never returns a record
whose `expiresAt < now`. -/
theorem getCache_set_ttl {V : Type} (k : String) (v : V) (ttl t tq : Nat)
    (st : CacheState V) (h : 0 < ttl) :
    (tq < t + ttl →
      (getCache k tq (setCache k v (some ttl) true t false st)).1 = some v)
  ∧ (t + ttl < tq →
      (getCache k tq (setCache k v (some ttl) true t false st)).1 = none)
  ∧ (∀ (st2 : CacheState V) (e : MemEntry V), st2.memoryCache k = some e →
      e.expiresAt ≤ tq → getCache k tq st2 = getCacheLS k tq st2)
  ∧ (∀ (st2 : CacheState V) (item : CacheItem V),
      st2.localStore (cacheKeyOf k) = some (LSRecord.good item) →
      item.expiresAt < tq → (getCacheLS k tq st2).1 = none) := by
  have hne : ttl ≠ 0 := Nat.pos_iff_ne_zero.mp h
  rw [setCache_ok k v ttl t st hne]
  refine ⟨?_, ?_, ?_, ?_⟩
  · intro hlt
    simp [getCache, hlt]
  · intro hgt
    have hnl : ¬ tq < t + ttl := by omega
    simp [getCache, getCacheLS, hnl, hgt]
  · intro st2 e hmem hexp
    have hnl : ¬ tq < e.expiresAt := Nat.not_lt.mpr hexp
    simp [getCache, hmem, hnl]
  · intro st2 item hls hexp
    simp [getCacheLS, hls, hexp]

/-- Claim C1 witness: the amended theorem at `k = "k"`, `v = 7`,
`ttl = 100`, `t = 0`, `t' = 50`. -/
theorem getCache_set_ttl_witness :
    (0 : Nat) < 100 ∧ (50 : Nat) < 0 + 100 ∧
    (getCache "k" 50
        (setCache "k" (7 : Nat) (some 100) true 0 false (emptyCacheState Nat))).1
      = some 7 :=
  ⟨by decide, by decide,
    (getCache_set_ttl "k" 7 100 0 50 (emptyCacheState Nat) (by decide)).1 (by decide)⟩

/-- A durable tier holding only a corrupt record under key `"k"`. -/
def corruptState : CacheState Nat :=
  { memoryCache := fun _ => none
    localStore := updateFn (fun _ => none) (cacheKeyOf "k") (some LSRecord.corrupt) }

/-- Claim C5 counterexample: on a corrupt durable record `get` does
return a miss, but the corrupt record is NOT deleted from the durable
tier — `JSON.parse` throws, the `catch` returns `null` and never calls
`removeCache`, so the record is still physically present afterwards. -/
theorem getCache_corrupt_cex :
    (getCache "k" 5 corruptState).1 = none
  ∧ (getCache "k" 5 corruptState).2.localStore (cacheKeyOf "k") = some LSRecord.corrupt :=
  ⟨rfl, rfl⟩

/-- Claim C5 (amended): for every key whose durable record is corrupt
and absent from the memory tier, `get` returns a miss and no exception
escapes (the model's `getCache` is a total function returning the
documented miss), but the state is completely unchanged: the corrupt
record remains in the durable tier, it is not deleted. -/
theorem getCache_corruptRecord {V : Type} (k : String) (now : Nat) (st : CacheState V)
    (hmem : st.memoryCache k = none)
    (hls : st.localStore (cacheKeyOf k) = some LSRecord.corrupt) :
    getCache k now st = (none, st) := by
  simp [getCache, getCacheLS, hmem, hls]

/-- Claim C5 witness: the amended theorem on `corruptState`. -/
theorem getCache_corruptRecord_witness :
    corruptState.memoryCache "k" = none
  ∧ corruptState.localStore (cacheKeyOf "k") = some LSRecord.corrupt
  ∧ getCache "k" 5 corruptState = (none, corruptState) :=
  ⟨rfl, rfl, getCache_corruptRecord "k" 5 corruptState rfl rfl⟩

/-- Claim C6 counterexample: when the durable write throws, NOTHING is
cached — the memory-tier write sits after `localStorage.setItem` inside
the same `try`, so the throw skips it and a subsequent `get` within the
TTL misses, contradicting the claim that the value is still served from
memory. -/
theorem setCache_storageFailure_cex :
    (getCache "k" 1
        (setCache "k" (7 : Nat) (some 100) true 0 true (emptyCacheState Nat))).1 = none :=
  rfl

/-- Claim C6 (amended): if the durable-tier write inside `set` throws,
`set` absorbs the error (the model is a total function: no exception
propagates), but the value is NOT cached in the memory tier either —
the whole state is left exactly as it was, because the memory-tier
write comes after the throwing durable write. -/
theorem setCache_storageFailure {V : Type} (k : String) (v : V) (e : Option Nat)
    (u : Bool) (t : Nat) (st : CacheState V) :
    setCache k v e u t true st = st :=
  rfl

/-- A memory tier holding an entry for `"k"` that expired at time 10,
with an empty durable tier. -/
def expiredMemState : CacheState Nat :=
  { memoryCache := updateFn (fun _ => none) "k" (some ⟨7, 10⟩)
    localStore := fun _ => none }

/-- Claim C8 counterexample: `get("k")` at time 20 on a memory tier whose
entry for `"k"` expired at time 10 (durable tier empty) returns a miss
but does NOT remove the expired entry from the memory-tier map — the
source merely falls through to localStorage without deleting, so the
entry is still physically present after `get` returns. -/
theorem getCache_expiredMemory_cex :
    (10 : Nat) ≤ 20
  ∧ (getCache "k" 20 expiredMemState).1 = none
  ∧ (getCache "k" 20 expiredMemState).2.memoryCache "k" = some ⟨7, 10⟩ :=
  ⟨by decide, rfl, rfl⟩

/-- Claim C8 (amended): an expired memory-tier entry is treated as a
miss and the durable tier is consulted (`get` behaves exactly as its
durable-tier half), but the expired entry is not eagerly removed: when
the durable tier lacks the key, or holds a corrupt record, the expired
entry remains physically present in the memory tier after `get`
returns.  (It is only removed via `removeCache` when the durable tier
holds an expired record, or overwritten when it holds an unexpired
one.) -/
theorem getCache_expiredMemory {V : Type} (k : String) (now : Nat)
    (st : CacheState V) (e : MemEntry V)
    (hmem : st.memoryCache k = some e) (hexp : e.expiresAt ≤ now) :
    getCache k now st = getCacheLS k now st
  ∧ (st.localStore (cacheKeyOf k) = none →
      (getCache k now st).2.memoryCache k = some e)
  ∧ (st.localStore (cacheKeyOf k) = some LSRecord.corrupt →
      (getCache k now st).2.memoryCache k = some e) := by
  have hnl : ¬ now < e.expiresAt := Nat.not_lt.mpr hexp
  have hmain : getCache k now st = getCacheLS k now st := by
    simp [getCache, hmem, hnl]
  refine ⟨hmain, ?_, ?_⟩
  · intro hls
    rw [hmain]
    simp [getCacheLS, hls, hmem]
  · intro hls
    rw [hmain]
    simp [getCacheLS, hls, hmem]

/-- Claim C8 witness: the amended theorem on `expiredMemState`. -/
theorem getCache_expiredMemory_witness :
    expiredMemState.memoryCache "k" = some ⟨7, 10⟩
  ∧ (10 : Nat) ≤ 20
  ∧ getCache "k" 20 expiredMemState = getCacheLS "k" 20 expiredMemState :=
  ⟨rfl, by decide,
    (getCache_expiredMemory "k" 20 expiredMemState ⟨7, 10⟩ rfl (by decide)).1⟩

/-! ## Memoizer lemmas -/

theorem oldestFold_spec {V : Type} (rest : MemoCache V) (best : String × Nat) :
    (rest.foldl oldestStep best = best ∨
       ∃ kv ∈ rest, rest.foldl oldestStep best = (kv.1, kv.2.lastAccessed))
  ∧ (rest.foldl oldestStep best).2 ≤ best.2
  ∧ ∀ kv ∈ rest, (rest.foldl oldestStep best).2 ≤ kv.2.lastAccessed := by
  induction rest generalizing best with
  | nil => simp
  | cons x xs ih =>
    have hx : List.foldl oldestStep best (x :: xs)
        = List.foldl oldestStep (oldestStep best x) xs := rfl
    obtain ⟨ihm, ihle, ihall⟩ := ih (oldestStep best x)
    have hstep_le : (oldestStep best x).2 ≤ best.2 := by
      by_cases hc : x.2.lastAccessed < best.2
      · simp only [oldestStep, if_pos hc]
        omega
      · simp only [oldestStep, if_neg hc]
        omega
    have hstep_x : (oldestStep best x).2 ≤ x.2.lastAccessed := by
      by_cases hc : x.2.lastAccessed < best.2
      · simp only [oldestStep, if_pos hc]
        omega
      · simp only [oldestStep, if_neg hc]
        omega
    refine ⟨?_, ?_, ?_⟩
    · rw [hx]
      rcases ihm with he | ⟨kv, hkv, he⟩
      · rw [he]
        by_cases hc : x.2.lastAccessed < best.2
        · right
          exact ⟨x, List.mem_cons_self x xs, by simp only [oldestStep, if_pos hc]⟩
        · left
          simp only [oldestStep, if_neg hc]
      · right
        exact ⟨kv, List.mem_cons_of_mem x hkv, he⟩
    · rw [hx]
      exact le_trans ihle hstep_le
    · intro kv hkv
      rw [hx]
      rcases List.mem_cons.mp hkv with h | h
      · subst h
        exact le_trans ihle hstep_x
      · exact ihall kv h

theorem findOldest_spec {V : Type} (c : MemoCache V) (ok : String) (ot : Nat)
    (h : findOldest c = some (ok, ot)) :
    (∃ e : MemoEntry V, (ok, e) ∈ c ∧ e.lastAccessed = ot)
  ∧ ∀ kv ∈ c, ot ≤ kv.2.lastAccessed := by
  match c with
  | [] => simp [findOldest] at h
  | (k, e) :: rest =>
    have h2 : rest.foldl oldestStep (k, e.lastAccessed) = (ok, ot) := by
      simpa [findOldest] using h
    obtain ⟨hm, hle, hall⟩ := oldestFold_spec rest (k, e.lastAccessed)
    constructor
    · rcases hm with he | ⟨kv, hkv, he⟩
      · have hko : ((k, e.lastAccessed) : String × Nat) = (ok, ot) := he.symm.trans h2
        obtain ⟨hk, ht⟩ := Prod.mk.injEq .. ▸ hko
        exact ⟨e, by rw [← hk]; exact List.mem_cons_self _ _, ht.symm ▸ rfl⟩
      · have hko : ((kv.1, kv.2.lastAccessed) : String × Nat) = (ok, ot) := he.symm.trans h2
        obtain ⟨hk, ht⟩ := Prod.mk.injEq .. ▸ hko
        refine ⟨kv.2, ?_, ht⟩
        rw [← hk]
        exact List.mem_cons_of_mem _ hkv
    · intro kv hkv
      have hot : ot ≤ e.lastAccessed := by
        have := hle
        rw [h2] at this
        exact this
      rcases List.mem_cons.mp hkv with hh | hh
      · subst hh
        exact hot
      · have := hall kv hh
        rw [h2] at this
        exact this

theorem refreshAt_length {V : Type} (k : String) (now : Nat) (c : MemoCache V) :
    (refreshAt k now c).length = c.length := by
  simp [refreshAt]

theorem lookupEntry_cons {V : Type} (key xk : String) (xe : MemoEntry V) (xs : MemoCache V) :
    lookupEntry key ((xk, xe) :: xs) = if xk = key then some xe else lookupEntry key xs :=
  rfl

theorem refreshAt_cons {V : Type} (k : String) (now : Nat) (xk : String) (xe : MemoEntry V)
    (xs : MemoCache V) :
    refreshAt k now ((xk, xe) :: xs)
      = (if xk = k then (xk, ⟨xe.value, now⟩) else (xk, xe)) :: refreshAt k now xs :=
  rfl

theorem lookupEntry_refreshAt {V : Type} (k : String) (now : Nat) (c : MemoCache V)
    (e : MemoEntry V) (h : lookupEntry k c = some e) :
    lookupEntry k (refreshAt k now c) = some ⟨e.value, now⟩ := by
  induction c with
  | nil => simp [lookupEntry] at h
  | cons x xs ih =>
    obtain ⟨xk, xe⟩ := x
    rw [lookupEntry_cons] at h
    by_cases hk : xk = k
    · rw [if_pos hk] at h
      obtain rfl : xe = e := by injection h
      rw [refreshAt_cons, if_pos hk, lookupEntry_cons, if_pos hk]
    · rw [if_neg hk] at h
      rw [refreshAt_cons, if_neg hk, lookupEntry_cons, if_neg hk]
      exact ih h

/-! ## Claim theorems for the memoizer -/

/-- The resolver exhibiting the eviction bug: argument 0 fingerprints to
the empty string, every other argument to `"a"`. -/
def memoBugResolver : Nat → String := fun n => if n = 0 then "" else "a"

/-- Two calls of a memoizer with `maxSize = 1` through `memoBugResolver`:
first argument 0 (fingerprint `""`), then argument 1 (fingerprint `"a"`). -/
def memoBugRun : MemoCache Nat :=
  (memoStep (fun n => n) memoBugResolver 1 11
    (memoStep (fun n => n) memoBugResolver 1 10 [] 0).2 1).2

/-- Claim C2: with `maxSize = 1` and a resolver that fingerprints the
first call's arguments to the empty string, the second (distinct) call
leaves TWO entries in the table: the eviction scan picks the
empty-string key as oldest, but the JS truthiness guard `if (oldestKey)`
is false for `""`, so no entry is evicted and the bound `size() <= N` is
violated — the code contradicts its own comment "If cache is full,
remove least recently used item". -/
theorem memoize_sizeBound_violation :
    memoBugRun.length = 2 ∧ 1 < memoBugRun.length :=
  ⟨rfl, by decide⟩

/-- Claim C7: a cache hit never evicts — it returns the cached value,
preserves the table's keys and size, and refreshes the hit entry's
`lastAccessed` to the current time; a miss below capacity only appends;
a miss at capacity whose eviction scan picks a non-empty key removes
exactly that entry, and that key's `lastAccessed` is the global minimum
of the table; and in the concrete scenario (`maxSize = 2`: insert `"a"`,
insert `"b"`, access `"a"`, insert `"c"` at strictly increasing times)
`"b"` is evicted and exactly `"a"` and `"c"` remain. -/
theorem memoize_lru_eviction {α V : Type} (f : α → V) (resolver : α → String)
    (m now : Nat) (c : MemoCache V) (a : α) (g : String → V) :
    (∀ e : MemoEntry V, lookupEntry (resolver a) c = some e →
        memoStep f resolver m now c a = (e.value, refreshAt (resolver a) now c)
      ∧ (refreshAt (resolver a) now c).length = c.length
      ∧ lookupEntry (resolver a) (refreshAt (resolver a) now c) = some ⟨e.value, now⟩)
  ∧ (lookupEntry (resolver a) c = none → c.length < m →
        memoStep f resolver m now c a = (f a, c ++ [(resolver a, ⟨f a, now⟩)]))
  ∧ (∀ (ok : String) (ot : Nat), lookupEntry (resolver a) c = none → m ≤ c.length →
        findOldest c = some (ok, ot) → ok ≠ "" →
        memoStep f resolver m now c a
          = (f a, eraseKey ok c ++ [(resolver a, ⟨f a, now⟩)])
      ∧ (∃ e : MemoEntry V, (ok, e) ∈ c ∧ e.lastAccessed = ot)
      ∧ ∀ kv ∈ c, ot ≤ kv.2.lastAccessed)
  ∧ lruScenario V g = [("a", ⟨g "a", 3⟩), ("c", ⟨g "c", 4⟩)] := by
  refine ⟨?_, ?_, ?_, rfl⟩
  · intro e h
    exact ⟨by simp [memoStep, h], refreshAt_length _ _ _,
      lookupEntry_refreshAt _ _ _ _ h⟩
  · intro h hlen
    simp [memoStep, h, Nat.not_le.mpr hlen]
  · intro ok ot h hlen hfind hok
    obtain ⟨hmem, hmin⟩ := findOldest_spec c ok ot hfind
    exact ⟨by simp [memoStep, h, hlen, hfind, hok], hmem, hmin⟩

/-- A one-entry table for the hit branch of the C7 witness. -/
def memoHitCache : MemoCache Nat := [("a", ⟨5, 1⟩)]

/-- A full two-entry table for the eviction branch of the C7 witness. -/
def memoFullCache : MemoCache Nat := [("b", ⟨5, 1⟩), ("d", ⟨6, 2⟩)]

/-- Claim C7 witness: the theorem's hit branch on `memoHitCache` and its
eviction branch on `memoFullCache`, both at concrete inputs. -/
theorem memoize_lru_eviction_witness :
    lookupEntry "a" memoHitCache = some ⟨5, 1⟩
  ∧ memoStep (fun _ => (5 : Nat)) id 2 9 memoHitCache "a" = (5, refreshAt "a" 9 memoHitCache)
  ∧ lookupEntry "c" memoFullCache = none
  ∧ findOldest memoFullCache = some ("b", 1)
  ∧ memoStep (fun _ => (5 : Nat)) id 2 9 memoFullCache "c"
      = (5, eraseKey "b" memoFullCache ++ [("c", ⟨5, 9⟩)]) :=
  ⟨rfl,
    ((memoize_lru_eviction (fun _ => (5 : Nat)) id 2 9 memoHitCache "a"
        (fun _ => (5 : Nat))).1 ⟨5, 1⟩ rfl).1,
    rfl, rfl,
    ((memoize_lru_eviction (fun _ => (5 : Nat)) id 2 9 memoFullCache "c"
        (fun _ => (5 : Nat))).2.2.1 "b" 1 rfl (by decide) rfl (by decide)).1⟩

/-! ## Claim theorems for the throttle -/

/-- Claim C3 counterexample: after the immediate leading invocation (the
call at relative `t = 0`, absolute time 1000 with `delay = 100`),
`isThrottled` is `false`, not `true`: the source only raises the flag
when a call lands inside the window, so the flag is `false` on the whole
subinterval before the `t = 50` call, contradicting "`isThrottled` is
true throughout the interval from `t = 0` to `t = 100`". -/
theorem throttle_isThrottled_cex :
    (throttleRun 100 [(1000, (0 : Nat))] (throttleInit Nat)).isThrottled = false
  ∧ (throttleRun 100 [(1000, (0 : Nat))] (throttleInit Nat)).invocations = [(1000, 0)] :=
  ⟨rfl, rfl⟩

/-- Claim C3 (amended): with `delay = 100` and calls at relative times
0, 50, 90 (absolute `t0, t0+50, t0+90`, for any window start
`t0 ≥ 100` of a real clock), the call at `t = 0` invokes the callback
immediately and the `t = 50` and `t = 90` calls coalesce into exactly
one trailing invocation at `t = 100` carrying the `t = 90` arguments;
`isThrottled` is `false` after the immediate leading call, becomes
`true` at the `t = 50` call, stays `true` through the `t = 90` call, and
drops to `false` when the trailing call fires at `t = 100`. -/
theorem throttle_trailing {A : Type} (t0 : Nat) (a0 a50 a90 : A) (h : 100 ≤ t0) :
    throttleFinish (throttleRun 100 [(t0, a0), (t0+50, a50), (t0+90, a90)] (throttleInit A))
      = ⟨t0+90, none, false, [(t0, a0), (t0+100, a90)]⟩
  ∧ (throttleRun 100 [(t0, a0)] (throttleInit A)).isThrottled = false
  ∧ (throttleRun 100 [(t0, a0), (t0+50, a50)] (throttleInit A)).isThrottled = true
  ∧ (throttleRun 100 [(t0, a0), (t0+50, a50), (t0+90, a90)] (throttleInit A)).isThrottled
      = true := by
  have h1 : throttleCall 100 t0 a0 (throttleInit A) = ⟨t0, none, false, [(t0, a0)]⟩ := by
    have hge : ¬ (t0 - 0 < 100) := by omega
    simp [throttleCall, throttleInit, hge]
    omega
  have h2 : throttleCall 100 (t0+50) a50 ⟨t0, none, false, [(t0, a0)]⟩
      = ⟨t0, some (t0+100, t0+50, a50), true, [(t0, a0)]⟩ := by
    have hlt : t0 + 50 - t0 < 100 := by omega
    have hfa : t0 + 50 + (100 - (t0 + 50 - t0)) = t0 + 100 := by omega
    simp [throttleCall, hlt, hfa]
  have h3 : throttleCall 100 (t0+90) a90 ⟨t0, some (t0+100, t0+50, a50), true, [(t0, a0)]⟩
      = ⟨t0, some (t0+100, t0+90, a90), true, [(t0, a0)]⟩ := by
    have hlt : t0 + 90 - t0 < 100 := by omega
    have hfa : t0 + 90 + (100 - (t0 + 90 - t0)) = t0 + 100 := by omega
    simp [throttleCall, hlt, hfa]
  have htick2 : throttleTick (t0+90)
        (⟨t0, some (t0+100, t0+50, a50), true, [(t0, a0)]⟩ : ThrottleState A)
      = ⟨t0, some (t0+100, t0+50, a50), true, [(t0, a0)]⟩ := by
    have hno : ¬ (t0 + 100 ≤ t0 + 90) := by omega
    simp [throttleTick, hno]
  have hr1 : throttleRun 100 [(t0, a0)] (throttleInit A) = ⟨t0, none, false, [(t0, a0)]⟩ := by
    show throttleCall 100 t0 a0 (throttleTick t0 (throttleInit A)) = _
    rw [show throttleTick t0 (throttleInit A) = throttleInit A from rfl, h1]
  have hr2 : throttleRun 100 [(t0, a0), (t0+50, a50)] (throttleInit A)
      = ⟨t0, some (t0+100, t0+50, a50), true, [(t0, a0)]⟩ := by
    show throttleCall 100 (t0+50) a50
      (throttleTick (t0+50) (throttleCall 100 t0 a0 (throttleTick t0 (throttleInit A)))) = _
    rw [show throttleTick t0 (throttleInit A) = throttleInit A from rfl, h1]
    rw [show throttleTick (t0+50) (⟨t0, none, false, [(t0, a0)]⟩ : ThrottleState A)
          = ⟨t0, none, false, [(t0, a0)]⟩ from rfl, h2]
  have hr3 : throttleRun 100 [(t0, a0), (t0+50, a50), (t0+90, a90)] (throttleInit A)
      = ⟨t0, some (t0+100, t0+90, a90), true, [(t0, a0)]⟩ := by
    show throttleCall 100 (t0+90) a90 (throttleTick (t0+90) (throttleCall 100 (t0+50) a50
      (throttleTick (t0+50) (throttleCall 100 t0 a0 (throttleTick t0 (throttleInit A)))))) = _
    rw [show throttleTick t0 (throttleInit A) = throttleInit A from rfl, h1]
    rw [show throttleTick (t0+50) (⟨t0, none, false, [(t0, a0)]⟩ : ThrottleState A)
          = ⟨t0, none, false, [(t0, a0)]⟩ from rfl, h2]
    rw [htick2, h3]
  refine ⟨?_, ?_, ?_, ?_⟩
  · rw [hr3]
    rfl
  · rw [hr1]
  · rw [hr2]
  · rw [hr3]

/-- Claim C3 witness: the amended theorem at `t0 = 1000` with argument
payloads 0, 1, 2. -/
theorem throttle_trailing_witness :
    (100 : Nat) ≤ 1000
  ∧ throttleFinish (throttleRun 100 [(1000, (0 : Nat)), (1050, 1), (1090, 2)]
        (throttleInit Nat))
      = ⟨1090, none, false, [(1000, 0), (1100, 2)]⟩ :=
  ⟨by decide, (throttle_trailing 1000 0 1 2 (by decide)).1⟩

/-! ## Claim theorems for the debounce -/

/-- Claim C9: with `delay = 50` and value arrivals at `t = 0, 10, 20, 30`
(the mount-time initial value included as the arrival at `t = 0`), the
debounced output is released exactly once, at `t = 80`, and the released
value is the one that arrived at `t = 30` — each earlier timer is
cancelled by the next arrival before it can fire. -/
theorem debounce_coalescing {V : Type} (v0 v1 v2 v3 : V) :
    (debounceFinish (debounceRun 50 [(0, v0), (10, v1), (20, v2), (30, v3)] ⟨none, []⟩)).releases
      = [(80, v3)] :=
  rfl

/-- Claim C10 counterexample: for a boolean initial value the non-leading
`useDebounce` initialiser returns the supplied value itself (`true`),
although a boolean is neither `null`, `undefined`, nor a non-array
object — the source's fall-through `return value` covers every type not
explicitly tested, not only objects. -/
theorem initialDebounced_cex :
    initialDebounced false (JSVal.bool true) = JSVal.bool true
  ∧ ¬ (JSVal.bool true = JSVal.nullV ∨ JSVal.bool true = JSVal.undefinedV
        ∨ JSVal.bool true = JSVal.objV) :=
  ⟨rfl, by intro hor; rcases hor with h | h | h <;> exact JSVal.noConfusion h⟩

/-- Claim C10 (amended): without the leading option, the initial
debounced value is the empty string for a string input, 0 for a number
input, and the empty array for an array input; for every other supplied
value — `null`, `undefined`, objects, booleans, and any further type —
the supplied value itself is returned. -/
theorem initialDebounced_spec (v : JSVal) :
    (∀ s, v = JSVal.str s → initialDebounced false v = JSVal.str "")
  ∧ (∀ n, v = JSVal.num n → initialDebounced false v = JSVal.num 0)
  ∧ (∀ xs, v = JSVal.arr xs → initialDebounced false v = JSVal.arr [])
  ∧ ((∀ s, v ≠ JSVal.str s) → (∀ n, v ≠ JSVal.num n) → (∀ xs, v ≠ JSVal.arr xs) →
      initialDebounced false v = v) := by
  refine ⟨?_, ?_, ?_, ?_⟩
  · intro s hv
    subst hv
    rfl
  · intro n hv
    subst hv
    rfl
  · intro xs hv
    subst hv
    rfl
  · intro hs hn hx
    cases v with
    | str s => exact absurd rfl (hs s)
    | num n => exact absurd rfl (hn n)
    | arr xs => exact absurd rfl (hx xs)
    | nullV => rfl
    | undefinedV => rfl
    | objV => rfl
    | bool b => rfl

/-- Claim C10 witness: the amended theorem's string branch at `"x"` and
its fall-through branch at `true`. -/
theorem initialDebounced_spec_witness :
    initialDebounced false (JSVal.str "x") = JSVal.str ""
  ∧ initialDebounced false (JSVal.bool true) = JSVal.bool true :=
  ⟨(initialDebounced_spec (JSVal.str "x")).1 "x" rfl,
    (initialDebounced_spec (JSVal.bool true)).2.2.2
      (fun _ h => JSVal.noConfusion h) (fun _ h => JSVal.noConfusion h)
      (fun _ h => JSVal.noConfusion h)⟩

/-! ## Batch collector lemmas -/

theorem processBatch_join {T : Type} (st : BatchState T) :
    (processBatch st).dispatched.flatten ++ (processBatch st).queue
      = st.dispatched.flatten ++ st.queue := by
  cases hq : st.queue with
  | nil => simp [processBatch, hq]
  | cons x xs => simp [processBatch, hq]

theorem processBatch_nonempty {T : Type} (st : BatchState T)
    (hd : ∀ b ∈ st.dispatched, b ≠ []) :
    ∀ b ∈ (processBatch st).dispatched, b ≠ [] := by
  cases hq : st.queue with
  | nil => simpa [processBatch, hq] using hd
  | cons x xs =>
    intro b hb
    simp [processBatch, hq] at hb
    rcases hb with hb | hb
    · exact hd b hb
    · subst hb
      simp

theorem batchStep_join {T : Type} (m : Nat) (st : BatchState T) (ev : BatchEv T) :
    (batchStep m st ev).dispatched.flatten ++ (batchStep m st ev).queue
      = st.dispatched.flatten ++ st.queue ++ addedItems [ev] := by
  cases ev with
  | add item =>
    simp only [batchStep, addToQueue, addedItems]
    by_cases hmax : m ≤ (st.queue ++ [item]).length
    · rw [if_pos hmax]
      have hp := processBatch_join
        (⟨st.queue ++ [item], false, st.dispatched⟩ : BatchState T)
      simpa [List.append_assoc] using hp
    · rw [if_neg hmax]
      by_cases ht : st.timerArmed
      · rw [if_pos ht]
        simp [List.append_assoc]
      · rw [if_neg ht]
        simp [List.append_assoc]
  | fire =>
    simp only [batchStep, timerFire, addedItems]
    by_cases ht : st.timerArmed
    · rw [if_pos ht]
      have hp := processBatch_join st
      simpa using hp
    · rw [if_neg ht]
      simp
  | flush =>
    simp only [batchStep, addedItems]
    have hp := processBatch_join st
    simpa using hp

theorem batchStep_nonempty {T : Type} (m : Nat) (st : BatchState T) (ev : BatchEv T)
    (hd : ∀ b ∈ st.dispatched, b ≠ []) :
    ∀ b ∈ (batchStep m st ev).dispatched, b ≠ [] := by
  cases ev with
  | add item =>
    simp only [batchStep, addToQueue]
    by_cases hmax : m ≤ (st.queue ++ [item]).length
    · rw [if_pos hmax]
      exact processBatch_nonempty _ hd
    · rw [if_neg hmax]
      by_cases ht : st.timerArmed
      · rw [if_pos ht]
        exact hd
      · rw [if_neg ht]
        exact hd
  | fire =>
    simp only [batchStep, timerFire]
    by_cases ht : st.timerArmed
    · rw [if_pos ht]
      exact processBatch_nonempty _ hd
    · rw [if_neg ht]
      exact hd
  | flush => exact processBatch_nonempty _ hd

theorem batchRun_invariant {T : Type} (m : Nat) (evs : List (BatchEv T)) (st : BatchState T) :
    (batchRun m evs st).dispatched.flatten ++ (batchRun m evs st).queue
      = st.dispatched.flatten ++ st.queue ++ addedItems evs
  ∧ ((∀ b ∈ st.dispatched, b ≠ []) → ∀ b ∈ (batchRun m evs st).dispatched, b ≠ []) := by
  induction evs generalizing st with
  | nil => simp [batchRun, addedItems]
  | cons ev rest ih =>
    have hrun : batchRun m (ev :: rest) st = batchRun m rest (batchStep m st ev) := rfl
    rw [hrun]
    obtain ⟨ih1, ih2⟩ := ih (batchStep m st ev)
    constructor
    · rw [ih1, batchStep_join m st ev]
      cases ev <;> simp [addedItems, List.append_assoc]
    · intro hd
      exact ih2 (batchStep_nonempty m st ev hd)

/-! ## Claim theorem for the batch collector -/

/-- Claim C4: over every event sequence (adds, timer firings, manual
flushes) from the initial empty collector, the dispatched batches
concatenated with the still-pending queue are exactly the added items in
order — so every added item belongs to exactly one `processFn` argument
list or is still queued, never duplicated and never dropped — and every
batch handed to `processFn` is non-empty.  Because each dispatch
snapshots and clears the queue atomically before the asynchronous
`processFn` call, an item added while a dispatch is in flight is a later
event and can only land in a later batch, never in the one already
dispatched. -/
theorem batch_exactly_once {T : Type} (m : Nat) (evs : List (BatchEv T)) :
    (batchRun m evs ⟨[], false, []⟩).dispatched.flatten
        ++ (batchRun m evs ⟨[], false, []⟩).queue
      = addedItems evs
  ∧ ∀ b ∈ (batchRun m evs ⟨[], false, []⟩).dispatched, b ≠ [] := by
  obtain ⟨h1, h2⟩ := batchRun_invariant m evs (⟨[], false, []⟩ : BatchState T)
  refine ⟨?_, h2 (by simp)⟩
  simpa using h1

/-- Claim C4 witness: with `maxBatchSize = 2` and events
add 1, add 2, add 3, timer-fire, the dispatched batches are
`[[1, 2], [3]]`; the theorem reproduces the added items `[1, 2, 3]` and
the non-emptiness of the batch `[1, 2]`. -/
theorem batch_exactly_once_witness :
    (batchRun 2 [BatchEv.add 1, BatchEv.add 2, BatchEv.add 3, BatchEv.fire]
        (⟨[], false, []⟩ : BatchState Nat)).dispatched = [[1, 2], [3]]
  ∧ (batchRun 2 [BatchEv.add 1, BatchEv.add 2, BatchEv.add 3, BatchEv.fire]
        (⟨[], false, []⟩ : BatchState Nat)).dispatched.flatten
      ++ (batchRun 2 [BatchEv.add 1, BatchEv.add 2, BatchEv.add 3, BatchEv.fire]
        (⟨[], false, []⟩ : BatchState Nat)).queue
      = [1, 2, 3]
  ∧ [1, 2] ∈ (batchRun 2 [BatchEv.add 1, BatchEv.add 2, BatchEv.add 3, BatchEv.fire]
        (⟨[], false, []⟩ : BatchState Nat)).dispatched
  ∧ ([1, 2] : List Nat) ≠ [] :=
  ⟨rfl,
    (batch_exactly_once 2 [BatchEv.add 1, BatchEv.add 2, BatchEv.add 3, BatchEv.fire]).1,
    by decide,
    (batch_exactly_once 2 [BatchEv.add 1, BatchEv.add 2, BatchEv.add 3, BatchEv.fire]).2
      [1, 2] (by decide)⟩

end QuickEat
